import Mathlib

/-!
# OLS normal-equation solver: shallow embedding

This file embeds the normal-equation ordinary-least-squares path of
`src/statsmodels/benchmark_linreg.ipynb`:

```python
coefs = np.linalg.solve(X_with_const.T @ X_with_const, X_with_const.T @ y)
r2 = pearsonr(X_with_const @ coefs, y)[0] ** 2
```

The arithmetic is embedded exactly over `ℚ`.  `np.linalg.solve` fails on a
singular matrix and otherwise returns the unique solution of the linear
system; in exact arithmetic this is modelled by testing `det = 0` and
otherwise solving with the adjugate (Cramer) formula, which is computable.
`scipy.stats.pearsonr` centers both vectors and returns
`Σ aᵢbᵢ / sqrt (Σ aᵢ² · Σ bᵢ²)`; the notebook immediately squares it, and the
square is a rational function of the inputs, embedded as `r2stat`.  The
real-valued correlation itself (with the square root) is `pearsonr` below,
used to relate the squared form to the genuine Pearson coefficient.
-/

open Matrix BigOperators

/-- Error kinds of the OLS solver: a shape inconsistency between the inputs
(numpy raises a `ValueError` from `X.T @ y` before `np.linalg.solve` runs),
or a singular normal-equation matrix (numpy raises `LinAlgError`). -/
inductive OLSError where
  | DimensionMismatch
  | SingularMatrix
  deriving DecidableEq, Repr

instance {ε α : Type} [DecidableEq ε] [DecidableEq α] :
    DecidableEq (Except ε α) := fun x y =>
  match x, y with
  | .ok a, .ok b => decidable_of_iff (a = b) (by simp)
  | .error a, .error b => decidable_of_iff (a = b) (by simp)
  | .ok _, .error _ => isFalse (by simp)
  | .error _, .ok _ => isFalse (by simp)

/-- Sum of squares of a vector, `‖v‖²`. -/
def sqNorm {n : ℕ} (v : Fin n → ℚ) : ℚ := ∑ i, (v i) ^ 2

/-- Arithmetic mean of a vector, `np.mean`. -/
def mean {n : ℕ} (v : Fin n → ℚ) : ℚ := (∑ i, v i) / n

/-- Centered cross-product `Σ (uᵢ - ū)(vᵢ - v̄)` appearing in the numerator
and denominator of scipy's `pearsonr`. -/
def covc {n : ℕ} (u v : Fin n → ℚ) : ℚ :=
  ∑ i, (u i - mean u) * (v i - mean v)

/-- The squared Pearson correlation coefficient `pearsonr(u, v)[0] ** 2`,
as the notebook computes it; the square root in `pearsonr` disappears under
squaring, leaving a rational function. -/
def r2stat {n : ℕ} (u v : Fin n → ℚ) : ℚ :=
  (covc u v) ^ 2 / (covc u u * covc v v)

/-- The fit statistic with scipy's undefined case made explicit:
`pearsonr` divides by `sqrt (Σ aᵢ² · Σ bᵢ²)`, so when either centered input
is the zero vector the program computes `0/0` and reports NaN; `none` models
that NaN, and otherwise the statistic is the rational `r2stat`. -/
def r2statN {n : ℕ} (u v : Fin n → ℚ) : Option ℚ :=
  if covc u u * covc v v = 0 then none else some (r2stat u v)

/-- The real-valued Pearson correlation coefficient as scipy computes it:
center both vectors, then `Σ aᵢbᵢ / sqrt (Σ aᵢ² · Σ bᵢ²)`. -/
noncomputable def pearsonr {n : ℕ} (u v : Fin n → ℝ) : ℝ :=
  (∑ i, (u i - (∑ j, u j) / n) * (v i - (∑ j, v j) / n)) /
    Real.sqrt ((∑ i, (u i - (∑ j, u j) / n) ^ 2) *
      (∑ i, (v i - (∑ j, v j) / n) ^ 2))

/-- The normal-equation cell of the notebook on shape-correct inputs:
`coefs = np.linalg.solve(Xᵀ X, Xᵀ y)` followed by
`r2 = pearsonr(X @ coefs, y)[0] ** 2`.  `np.linalg.solve` fails on a
singular matrix (exactly: `det = 0`) and otherwise returns the unique
solution, here computed by the adjugate formula
`A⁻¹ b = det⁻¹ • (adjugate A *ᵥ b)`. -/
def fit_ols {n p : ℕ} (X : Matrix (Fin n) (Fin p) ℚ) (y : Fin n → ℚ) :
    Except OLSError ((Fin p → ℚ) × ℚ) :=
  let A := Xᵀ * X
  let b := Xᵀ *ᵥ y
  if A.det = 0 then
    .error .SingularMatrix
  else
    let coefs := A.det⁻¹ • (A.adjugate *ᵥ b)
    .ok (coefs, r2stat (X *ᵥ coefs) y)

/-- The normal-equation cell on raw (list-shaped) inputs.  numpy first checks
that the shapes are consistent: `X.T @ y` requires the row count of `X` to
equal the length of `y` (and a numpy 2-d array is rectangular), and it raises
before `np.linalg.solve` is ever attempted.  On consistent shapes the typed
solver above runs. -/
def fit_ols_list (X : List (List ℚ)) (y : List ℚ) :
    Except OLSError (List ℚ × ℚ) :=
  let n := X.length
  let p := (X.headD []).length
  if (X.all fun r => r.length = p) ∧ y.length = n then
    match fit_ols (Matrix.of fun (i : Fin n) (j : Fin p) =>
        ((X.getD i []).getD j 0)) (fun i : Fin n => y.getD i 0) with
    | .ok (β, s) => .ok (List.ofFn β, s)
    | .error e => .error e
  else
    .error .DimensionMismatch

/-- Modelled from the spec: the conventional coefficient of determination
`R² = 1 − SS_res/SS_tot`, which is also what
`LinearRegression(fit_intercept=False).score` computes in the scikit-learn
cell of the notebook (whose internals are not part of this repository). -/
def conventionalR2 {n p : ℕ} (X : Matrix (Fin n) (Fin p) ℚ) (y : Fin n → ℚ)
    (β : Fin p → ℚ) : ℚ :=
  1 - (∑ i, (y i - (X *ᵥ β) i) ^ 2) / (∑ i, (y i - mean y) ^ 2)

/-- Modelled from the spec: `sk_ols.fit(X, y)` for
`LinearRegression(fit_intercept=False)` computes an ordinary-least-squares
coefficient vector, i.e. one minimizing the sum of squared residuals
`‖Xβ − y‖²` (the scikit-learn library code is not part of this repository). -/
def IsSklearnFit {n p : ℕ} (X : Matrix (Fin n) (Fin p) ℚ) (y : Fin n → ℚ)
    (β : Fin p → ℚ) : Prop :=
  ∀ b : Fin p → ℚ, sqNorm (X *ᵥ β - y) ≤ sqNorm (X *ᵥ b - y)

/-- The notebook cell as a state transformer: it reads the environment
`(X_with_const, y)` and binds `coefs, r2`, leaving the arrays untouched
(numpy's `@`, `np.linalg.solve` and `pearsonr` allocate fresh outputs). -/
def fit_ols_call (env : List (List ℚ) × List ℚ) :
    (List (List ℚ) × List ℚ) × Except OLSError (List ℚ × ℚ) :=
  (env, fit_ols_list env.1 env.2)

/-! ## Basic facts about the solver -/

theorem fit_ols_det_ne {n p : ℕ} {X : Matrix (Fin n) (Fin p) ℚ} {y : Fin n → ℚ}
    {β : Fin p → ℚ} {s : ℚ} (h : fit_ols X y = .ok (β, s)) :
    (Xᵀ * X).det ≠ 0 := by
  intro hd
  simp [fit_ols, hd] at h

theorem fit_ols_coefs {n p : ℕ} {X : Matrix (Fin n) (Fin p) ℚ} {y : Fin n → ℚ}
    {β : Fin p → ℚ} {s : ℚ} (h : fit_ols X y = .ok (β, s)) :
    β = (Xᵀ * X).det⁻¹ • ((Xᵀ * X).adjugate *ᵥ (Xᵀ *ᵥ y)) := by
  have hd := fit_ols_det_ne h
  simp [fit_ols, hd] at h
  rw [Matrix.mulVec_mulVec]
  exact h.1.symm

theorem fit_ols_stat {n p : ℕ} {X : Matrix (Fin n) (Fin p) ℚ} {y : Fin n → ℚ}
    {β : Fin p → ℚ} {s : ℚ} (h : fit_ols X y = .ok (β, s)) :
    s = r2stat (X *ᵥ β) y := by
  have hd := fit_ols_det_ne h
  simp [fit_ols, hd] at h
  rw [← h.2, h.1]

theorem adjugate_solve {p : ℕ} (A : Matrix (Fin p) (Fin p) ℚ) (hd : A.det ≠ 0)
    (b : Fin p → ℚ) : A *ᵥ (A.det⁻¹ • (A.adjugate *ᵥ b)) = b := by
  rw [mulVec_smul, Matrix.mulVec_mulVec, Matrix.mul_adjugate,
    Matrix.smul_mulVec_assoc, Matrix.one_mulVec, smul_smul,
    inv_mul_cancel₀ hd, one_smul]

/-- Success of `fit_ols` means the returned coefficients solve the
normal-equation system `(Xᵀ X) β = Xᵀ y`. -/
theorem fit_ols_normal {n p : ℕ} {X : Matrix (Fin n) (Fin p) ℚ} {y : Fin n → ℚ}
    {β : Fin p → ℚ} {s : ℚ} (h : fit_ols X y = .ok (β, s)) :
    (Xᵀ * X) *ᵥ β = Xᵀ *ᵥ y := by
  rw [fit_ols_coefs h]
  exact adjugate_solve _ (fit_ols_det_ne h) _

theorem mulVec_cancel {p : ℕ} {A : Matrix (Fin p) (Fin p) ℚ} (hd : A.det ≠ 0)
    {u v : Fin p → ℚ} (h : A *ᵥ u = A *ᵥ v) : u = v := by
  have key : ∀ w : Fin p → ℚ, A.det⁻¹ • (A.adjugate *ᵥ (A *ᵥ w)) = w := by
    intro w
    rw [Matrix.mulVec_mulVec, Matrix.adjugate_mul, Matrix.smul_mulVec_assoc,
      Matrix.one_mulVec, smul_smul, inv_mul_cancel₀ hd, one_smul]
  rw [← key u, ← key v, h]

/-! ## Quadratic-form toolbox -/

theorem sqNorm_add {n : ℕ} (u v : Fin n → ℚ) :
    sqNorm (u + v) = sqNorm u + 2 * (u ⬝ᵥ v) + sqNorm v := by
  simp only [sqNorm, dotProduct, Pi.add_apply, Finset.mul_sum]
  rw [← Finset.sum_add_distrib, ← Finset.sum_add_distrib]
  exact Finset.sum_congr rfl fun i _ => by ring

theorem sqNorm_nonneg {n : ℕ} (v : Fin n → ℚ) : 0 ≤ sqNorm v :=
  Finset.sum_nonneg fun i _ => sq_nonneg _

theorem sqNorm_eq_zero {n : ℕ} {v : Fin n → ℚ} (h : sqNorm v = 0) : v = 0 := by
  funext i
  have h2 := (Finset.sum_eq_zero_iff_of_nonneg
    (fun j (_ : j ∈ Finset.univ) => sq_nonneg (v j))).1 h i (Finset.mem_univ i)
  exact pow_eq_zero_iff (n := 2) (by norm_num) |>.1 h2

theorem dot_mulVec_eq {n p : ℕ} (X : Matrix (Fin n) (Fin p) ℚ)
    (u : Fin p → ℚ) (r : Fin n → ℚ) :
    (X *ᵥ u) ⬝ᵥ r = u ⬝ᵥ (Xᵀ *ᵥ r) := by
  rw [dotProduct_comm, dotProduct_mulVec, Matrix.mulVec_transpose,
    dotProduct_comm]

/-- The residual of the normal-equation solution is orthogonal to the column
space of `X`. -/
theorem fit_ols_residual_orth {n p : ℕ} {X : Matrix (Fin n) (Fin p) ℚ}
    {y : Fin n → ℚ} {β : Fin p → ℚ} {s : ℚ} (h : fit_ols X y = .ok (β, s)) :
    Xᵀ *ᵥ (X *ᵥ β - y) = 0 := by
  rw [Matrix.mulVec_sub, Matrix.mulVec_mulVec, fit_ols_normal h, sub_self]

/-- Pythagorean decomposition of the residual of an arbitrary candidate `b`
around the normal-equation solution. -/
theorem fit_ols_decomp {n p : ℕ} {X : Matrix (Fin n) (Fin p) ℚ}
    {y : Fin n → ℚ} {β : Fin p → ℚ} {s : ℚ} (h : fit_ols X y = .ok (β, s))
    (b : Fin p → ℚ) :
    sqNorm (X *ᵥ b - y) =
      sqNorm (X *ᵥ β - y) + sqNorm (X *ᵥ (b - β)) := by
  have hsplit : X *ᵥ b - y = (X *ᵥ (b - β)) + (X *ᵥ β - y) := by
    rw [Matrix.mulVec_sub]
    abel
  rw [hsplit, sqNorm_add, dot_mulVec_eq, fit_ols_residual_orth h,
    dotProduct_zero]
  ring

theorem fit_ols_min {n p : ℕ} {X : Matrix (Fin n) (Fin p) ℚ}
    {y : Fin n → ℚ} {β : Fin p → ℚ} {s : ℚ} (h : fit_ols X y = .ok (β, s))
    (b : Fin p → ℚ) :
    sqNorm (X *ᵥ β - y) ≤ sqNorm (X *ᵥ b - y) := by
  rw [fit_ols_decomp h b]
  exact le_add_of_nonneg_right (sqNorm_nonneg _)

theorem fit_ols_unique_min {n p : ℕ} {X : Matrix (Fin n) (Fin p) ℚ}
    {y : Fin n → ℚ} {β : Fin p → ℚ} {s : ℚ} (h : fit_ols X y = .ok (β, s))
    (b : Fin p → ℚ) (hb : ∀ c, sqNorm (X *ᵥ b - y) ≤ sqNorm (X *ᵥ c - y)) :
    b = β := by
  have h1 := fit_ols_decomp h b
  have h2 := hb β
  have h3 : sqNorm (X *ᵥ (b - β)) = 0 := le_antisymm (by linarith) (sqNorm_nonneg _)
  have h4 : X *ᵥ (b - β) = 0 := sqNorm_eq_zero h3
  have h5 : (Xᵀ * X) *ᵥ (b - β) = (Xᵀ * X) *ᵥ 0 := by
    rw [← Matrix.mulVec_mulVec, h4, Matrix.mulVec_zero, Matrix.mulVec_zero]
  have h6 := mulVec_cancel (fit_ols_det_ne h) h5
  rwa [sub_eq_zero] at h6

/-! ## Rank and singularity -/

/-- Over `ℚ`, the normal-equation matrix `Xᵀ X` is nonsingular exactly when
`X` has full column rank. -/
theorem det_transpose_mul_self_ne_zero_iff {n p : ℕ}
    (X : Matrix (Fin n) (Fin p) ℚ) :
    (Xᵀ * X).det ≠ 0 ↔ X.rank = p := by
  constructor
  · intro hd
    have hu : IsUnit (Xᵀ * X) :=
      (Matrix.isUnit_iff_isUnit_det _).2 (isUnit_iff_ne_zero.2 hd)
    have hr := Matrix.rank_of_isUnit _ hu
    rw [← Matrix.rank_transpose_mul_self, hr, Fintype.card_fin]
  · intro hr
    have hrB : Module.finrank ℚ (LinearMap.range (Xᵀ * X).mulVecLin) = p := by
      have : (Xᵀ * X).rank = p := by rw [Matrix.rank_transpose_mul_self, hr]
      exact this
    have hsum := LinearMap.finrank_range_add_finrank_ker (Xᵀ * X).mulVecLin
    rw [Module.finrank_pi, Fintype.card_fin, hrB] at hsum
    have hker : LinearMap.ker (Xᵀ * X).mulVecLin = ⊥ :=
      Submodule.finrank_eq_zero.1 (by omega)
    have hinj : Function.Injective (Xᵀ * X).mulVecLin := LinearMap.ker_eq_bot.1 hker
    have hinj' : Function.Injective ((Xᵀ * X).mulVec) := by
      intro u v huv
      apply hinj
      simpa only [Matrix.mulVecLin_apply] using huv
    have hu : IsUnit (Xᵀ * X) := Matrix.mulVec_injective_iff_isUnit.1 hinj'
    exact isUnit_iff_ne_zero.1 ((Matrix.isUnit_iff_isUnit_det _).1 hu)

/-- On a full-column-rank design matrix the solver succeeds. -/
theorem fit_ols_ok_of_det_ne {n p : ℕ} (X : Matrix (Fin n) (Fin p) ℚ)
    (y : Fin n → ℚ) (hd : (Xᵀ * X).det ≠ 0) :
    fit_ols X y = .ok ((Xᵀ * X).det⁻¹ • ((Xᵀ * X).adjugate *ᵥ (Xᵀ *ᵥ y)),
      r2stat (X *ᵥ ((Xᵀ * X).det⁻¹ • ((Xᵀ * X).adjugate *ᵥ (Xᵀ *ᵥ y)))) y) := by
  simp [fit_ols, hd]

/-- Two equal columns make the normal-equation matrix singular. -/
theorem det_tXX_eq_zero_of_eq_cols {n p : ℕ} (X : Matrix (Fin n) (Fin p) ℚ)
    {i j : Fin p} (hne : i ≠ j) (hcols : ∀ k, X k i = X k j) :
    (Xᵀ * X).det = 0 := by
  apply Matrix.det_zero_of_row_eq hne
  funext k
  simp only [Matrix.mul_apply, Matrix.transpose_apply]
  exact Finset.sum_congr rfl fun l _ => by rw [hcols l]

/-- More predictors than observations make the normal-equation matrix
singular. -/
theorem det_tXX_eq_zero_of_lt {n p : ℕ} (X : Matrix (Fin n) (Fin p) ℚ)
    (hnp : n < p) : (Xᵀ * X).det = 0 := by
  by_contra hd
  have hr := (det_transpose_mul_self_ne_zero_iff X).1 hd
  have hle : X.rank ≤ n := by
    simpa [Fintype.card_fin] using Matrix.rank_le_card_height X
  omega

/-! ## Squared Pearson correlation vs conventional R² -/

/-- The sum-level identity: if the residual `u - y` sums to zero and is
orthogonal to the fitted values `u`, then the squared Pearson correlation of
`u` and `y` is `1 - SS_res/SS_tot` (provided `SS_tot ≠ 0`). -/
theorem r2stat_eq_one_sub {n : ℕ} (u y : Fin n → ℚ)
    (hsum : ∑ i, (u i - y i) = 0)
    (hdot : ∑ i, u i * (u i - y i) = 0)
    (hT : (∑ i, (y i - mean y) ^ 2) ≠ 0) :
    r2stat u y = 1 - (∑ i, (y i - u i) ^ 2) / (∑ i, (y i - mean y) ^ 2) := by
  have hmean : mean u = mean y := by
    have h1 : mean u - mean y = 0 := by
      rw [mean, mean, div_sub_div_same, ← Finset.sum_sub_distrib, hsum, zero_div]
    linarith
  set m := mean y with hm
  have hae : ∑ i, (u i - m) * (u i - y i) = 0 := by
    have expand : ∀ i : Fin n, (u i - m) * (u i - y i)
        = u i * (u i - y i) - m * (u i - y i) := fun i => by ring
    rw [Finset.sum_congr rfl fun i _ => expand i, Finset.sum_sub_distrib,
      hdot, ← Finset.mul_sum, hsum, mul_zero, sub_zero]
  set A2 := ∑ i, (u i - m) ^ 2 with hA2
  set E2 := ∑ i, (u i - y i) ^ 2 with hE2
  set T := ∑ i, (y i - m) ^ 2 with hTdef
  have hTsplit : T = A2 + E2 := by
    have expand : ∀ i : Fin n, (y i - m) ^ 2
        = ((u i - m) ^ 2 + (u i - y i) ^ 2) - 2 * ((u i - m) * (u i - y i)) :=
      fun i => by ring
    rw [hTdef, Finset.sum_congr rfl fun i _ => expand i,
      Finset.sum_sub_distrib, Finset.sum_add_distrib, ← Finset.mul_sum, hae,
      mul_zero, sub_zero]
  have hcov : covc u y = A2 := by
    rw [covc, hmean, ← hm]
    have expand : ∀ i : Fin n, (u i - m) * (y i - m)
        = (u i - m) ^ 2 - (u i - m) * (u i - y i) := fun i => by ring
    rw [Finset.sum_congr rfl fun i _ => expand i, Finset.sum_sub_distrib, hae,
      sub_zero]
  have hvaru : covc u u = A2 := by
    rw [covc, hmean, hA2]
    exact Finset.sum_congr rfl fun i _ => by ring
  have hvary : covc y y = T := by
    rw [covc, ← hm, hTdef]
    exact Finset.sum_congr rfl fun i _ => by ring
  have hres : (∑ i, (y i - u i) ^ 2) = E2 := by
    rw [hE2]
    exact Finset.sum_congr rfl fun i _ => by ring
  rw [r2stat, hcov, hvaru, hvary, hres]
  by_cases hA : A2 = 0
  · have hE2ne : E2 ≠ 0 := by
      rw [hTsplit, hA, zero_add] at hT
      exact hT
    have hTE : T = E2 := by rw [hTsplit, hA, zero_add]
    rw [hA, hTE, div_self hE2ne]
    norm_num
  · rw [pow_two, mul_div_mul_left _ _ hA, eq_sub_iff_add_eq,
      div_add_div_same, ← hTsplit, div_self hT]

/-- With an intercept column and a successful solve, the reported statistic
is the conventional `R² = 1 - SS_res/SS_tot` (when `SS_tot ≠ 0`). -/
theorem fit_ols_stat_eq_conventional {n p : ℕ} {X : Matrix (Fin n) (Fin p) ℚ}
    {y : Fin n → ℚ} {β : Fin p → ℚ} {s : ℚ} (h : fit_ols X y = .ok (β, s))
    (j : Fin p) (hj : ∀ i, X i j = 1)
    (hT : (∑ i, (y i - mean y) ^ 2) ≠ 0) :
    s = conventionalR2 X y β := by
  have horth := fit_ols_residual_orth h
  have hrow : ∀ w : Fin n → ℚ, (Xᵀ *ᵥ w) j = ∑ i, X i j * w i := by
    intro w
    simp [Matrix.mulVec, dotProduct, Matrix.transpose_apply]
  have h0 : ∑ i, X i j * ((X *ᵥ β - y) i) = 0 := by
    have h1 := congrFun horth j
    rw [hrow] at h1
    simpa using h1
  have hsum : ∑ i, ((X *ᵥ β) i - y i) = 0 := by
    calc ∑ i, ((X *ᵥ β) i - y i)
        = ∑ i, X i j * ((X *ᵥ β - y) i) :=
          Finset.sum_congr rfl fun i _ => by rw [hj i, one_mul, Pi.sub_apply]
      _ = 0 := h0
  have hdot : ∑ i, (X *ᵥ β) i * ((X *ᵥ β) i - y i) = 0 := by
    have h1 : (X *ᵥ β) ⬝ᵥ (X *ᵥ β - y) = 0 := by
      rw [dot_mulVec_eq, horth, dotProduct_zero]
    simpa [dotProduct, Pi.sub_apply] using h1
  rw [fit_ols_stat h, conventionalR2,
    r2stat_eq_one_sub (X *ᵥ β) y hsum hdot hT]

/-! ## The rational squared statistic is the square of the real Pearson r -/

theorem covc_cast {n : ℕ} (w z : Fin n → ℚ) :
    ((covc w z : ℚ) : ℝ)
      = ∑ i, ((w i : ℝ) - (∑ j, (w j : ℝ)) / n)
          * ((z i : ℝ) - (∑ j, (z j : ℝ)) / n) := by
  simp only [covc, mean]
  push_cast
  rfl

theorem r2stat_eq_pearsonr_sq {n : ℕ} (u v : Fin n → ℚ) :
    ((r2stat u v : ℚ) : ℝ)
      = pearsonr (fun i => (u i : ℝ)) (fun i => (v i : ℝ)) ^ 2 := by
  have hSu : ((covc u u : ℚ) : ℝ)
      = ∑ i, ((u i : ℝ) - (∑ j, (u j : ℝ)) / n) ^ 2 := by
    rw [covc_cast]
    exact Finset.sum_congr rfl fun i _ => by ring
  have hSv : ((covc v v : ℚ) : ℝ)
      = ∑ i, ((v i : ℝ) - (∑ j, (v j : ℝ)) / n) ^ 2 := by
    rw [covc_cast]
    exact Finset.sum_congr rfl fun i _ => by ring
  have hnn : 0 ≤ (∑ i, ((u i : ℝ) - (∑ j, (u j : ℝ)) / n) ^ 2)
      * (∑ i, ((v i : ℝ) - (∑ j, (v j : ℝ)) / n) ^ 2) :=
    mul_nonneg (Finset.sum_nonneg fun i _ => sq_nonneg _)
      (Finset.sum_nonneg fun i _ => sq_nonneg _)
  simp only [r2stat, pearsonr]
  push_cast
  rw [div_pow, Real.sq_sqrt hnn, covc_cast u v, hSu, hSv]

/-! ## Concrete evaluations -/

/-- The spec's concrete scenario: intercept column plus one predictor. -/
def X4 : Matrix (Fin 4) (Fin 2) ℚ := !![1, 1; 1, 2; 1, 3; 1, 4]

def y4 : Fin 4 → ℚ := ![2, 4, 6, 8]

theorem X4_gram : X4ᵀ * X4 = !![4, 10; 10, 30] := by
  ext i j
  fin_cases i <;> fin_cases j <;>
    norm_num [X4, Matrix.mul_apply, Matrix.transpose_apply, Fin.sum_univ_four,
      Matrix.vecHead, Matrix.vecTail, Function.comp]

theorem X4_moment : X4ᵀ *ᵥ y4 = ![20, 60] := by
  funext i
  fin_cases i <;>
    norm_num [X4, y4, Matrix.mulVec, Matrix.transpose_apply, dotProduct,
      Fin.sum_univ_four, Matrix.vecHead, Matrix.vecTail, Function.comp]

theorem X4_gram_det :
    (!![4, 10; 10, 30] : Matrix (Fin 2) (Fin 2) ℚ).det = 20 := by
  norm_num [Matrix.det_fin_two]

theorem X4_coefs :
    ((20 : ℚ)⁻¹ •
      ((!![4, 10; 10, 30] : Matrix (Fin 2) (Fin 2) ℚ).adjugate *ᵥ ![20, 60]))
      = ![0, 2] := by
  rw [Matrix.adjugate_fin_two]
  funext i
  fin_cases i <;>
    norm_num [Matrix.mulVec, dotProduct, Fin.sum_univ_two,
      Matrix.vecHead, Matrix.vecTail, Function.comp]

theorem X4_fitted : X4 *ᵥ ![0, 2] = y4 := by
  funext i
  fin_cases i <;>
    norm_num [X4, y4, Matrix.mulVec, dotProduct, Fin.sum_univ_two,
      Matrix.vecHead, Matrix.vecTail, Function.comp]

theorem mean_y4 : mean y4 = 5 := by
  norm_num [mean, y4, Fin.sum_univ_four]

theorem r2stat_y4 : r2stat y4 y4 = 1 := by
  have hcov : covc y4 y4 = 20 := by
    rw [covc, mean_y4]
    norm_num [y4, Fin.sum_univ_four]
  rw [r2stat, hcov]
  norm_num

theorem fit_ols_X4 : fit_ols X4 y4 = .ok (![0, 2], 1) := by
  simp only [fit_ols, X4_gram, X4_moment, X4_gram_det]
  rw [if_neg (by norm_num : ¬((20 : ℚ) = 0)), X4_coefs, X4_fitted, r2stat_y4]

theorem fit_ols_list_scenario :
    fit_ols_list [[1, 1], [1, 2], [1, 3], [1, 4]] [2, 4, 6, 8]
      = .ok ([0, 2], 1) := by
  have hM : (Matrix.of fun (i : Fin 4) (j : Fin 2) =>
      ((([[1, 1], [1, 2], [1, 3], [1, 4]] : List (List ℚ)).getD i []).getD j 0))
      = X4 := by
    ext i j
    fin_cases i <;> fin_cases j <;> rfl
  have hv : (fun i : Fin 4 => ([2, 4, 6, 8] : List ℚ).getD i 0) = y4 := by
    funext i
    fin_cases i <;> rfl
  have hstep : fit_ols_list [[1, 1], [1, 2], [1, 3], [1, 4]] [2, 4, 6, 8]
      = match fit_ols (Matrix.of fun (i : Fin 4) (j : Fin 2) =>
          ((([[1, 1], [1, 2], [1, 3], [1, 4]] : List (List ℚ)).getD i []).getD j 0))
          (fun i : Fin 4 => ([2, 4, 6, 8] : List ℚ).getD i 0) with
        | .ok (β, s) => .ok (List.ofFn β, s)
        | .error e => .error e := by
    with_unfolding_all rfl
  rw [hstep, hM, hv, fit_ols_X4]
  rfl

/-- A full-column-rank design without an intercept column, used to separate
the squared-Pearson statistic from the conventional R². -/
def X1 : Matrix (Fin 2) (Fin 1) ℚ := !![1; 0]

def y1 : Fin 2 → ℚ := ![1, 2]

theorem X1_gram : X1ᵀ * X1 = !![1] := by
  ext i j
  fin_cases i <;> fin_cases j <;>
    norm_num [X1, Matrix.mul_apply, Matrix.transpose_apply, Fin.sum_univ_two,
      Matrix.vecHead, Matrix.vecTail, Function.comp]

theorem X1_det_ne : (X1ᵀ * X1).det ≠ 0 := by
  rw [X1_gram, Matrix.det_fin_one]
  norm_num

theorem X1_fitted : X1 *ᵥ ![1] = ![1, 0] := by
  funext i
  fin_cases i <;>
    norm_num [X1, Matrix.mulVec, dotProduct, Fin.sum_univ_one,
      Matrix.vecHead, Matrix.vecTail, Function.comp]

theorem fit_ols_X1 : fit_ols X1 y1 = .ok (![1], 1) := by
  have hb : X1ᵀ *ᵥ y1 = ![1] := by
    funext i
    fin_cases i <;>
      norm_num [X1, y1, Matrix.mulVec, Matrix.transpose_apply, dotProduct,
        Fin.sum_univ_two, Matrix.vecHead, Matrix.vecTail, Function.comp]
  have hdet : (!![1] : Matrix (Fin 1) (Fin 1) ℚ).det = 1 := by
    rw [Matrix.det_fin_one]
    rfl
  have hcoefs : ((1 : ℚ)⁻¹ •
      ((!![1] : Matrix (Fin 1) (Fin 1) ℚ).adjugate *ᵥ ![1])) = ![1] := by
    funext i
    fin_cases i <;>
      norm_num [Matrix.adjugate_fin_one, Matrix.mulVec, dotProduct,
        Fin.sum_univ_one, Matrix.vecHead, Matrix.vecTail, Function.comp]
  have hr2 : r2stat (X1 *ᵥ ![1]) y1 = 1 := by
    rw [X1_fitted]
    have hmu : mean (![1, 0] : Fin 2 → ℚ) = 1 / 2 := by
      norm_num [mean, Fin.sum_univ_two]
    have hmv : mean y1 = 3 / 2 := by
      norm_num [mean, y1, Fin.sum_univ_two]
    rw [r2stat]
    rw [show covc ![1, 0] y1 = -(1 / 2) by
      rw [covc, hmu, hmv]; norm_num [y1, Fin.sum_univ_two]]
    rw [show covc (![1, 0] : Fin 2 → ℚ) ![1, 0] = 1 / 2 by
      rw [covc, hmu]; norm_num [Fin.sum_univ_two]]
    rw [show covc y1 y1 = 1 / 2 by
      rw [covc, hmv]; norm_num [y1, Fin.sum_univ_two]]
    norm_num
  simp only [fit_ols, X1_gram, hb, hdet]
  rw [if_neg (by norm_num : ¬((1 : ℚ) = 0)), hcoefs, hr2]

theorem conventionalR2_X1 : conventionalR2 X1 y1 ![1] = -7 := by
  rw [conventionalR2, X1_fitted]
  rw [show mean y1 = 3 / 2 by norm_num [mean, y1, Fin.sum_univ_two]]
  norm_num [y1, Fin.sum_univ_two]

theorem sklearnFit_X1 : IsSklearnFit X1 y1 ![1] := by
  intro b
  have hL : sqNorm (X1 *ᵥ ![1] - y1) = 4 := by
    rw [X1_fitted]
    norm_num [sqNorm, y1, Fin.sum_univ_two]
  have hR : sqNorm (X1 *ᵥ b - y1) = (b 0 - 1) ^ 2 + 4 := by
    have hXb : X1 *ᵥ b = ![b 0, 0] := by
      funext i
      fin_cases i <;>
        norm_num [X1, Matrix.mulVec, dotProduct, Fin.sum_univ_one,
          Matrix.vecHead, Matrix.vecTail, Function.comp]
    rw [hXb]
    norm_num [sqNorm, y1, Fin.sum_univ_two]
  rw [hL, hR]
  nlinarith [sq_nonneg (b 0 - 1)]

/-- A design with two identical predictor columns (perfect collinearity). -/
def Xs : Matrix (Fin 2) (Fin 2) ℚ := !![1, 1; 2, 2]

def ys : Fin 2 → ℚ := ![1, 2]

theorem Xs_cols_eq : ∀ k, Xs k 0 = Xs k 1 := by
  intro k
  fin_cases k <;> rfl

/-- Intercept-only design (a single column of ones). -/
def Xint : Matrix (Fin 2) (Fin 1) ℚ := !![1; 1]

def yconst : Fin 2 → ℚ := ![3, 3]

def yc : Fin 2 → ℚ := ![1, 3]

theorem Xint_gram : Xintᵀ * Xint = !![2] := by
  ext i j
  fin_cases i <;> fin_cases j <;>
    norm_num [Xint, Matrix.mul_apply, Matrix.transpose_apply, Fin.sum_univ_two,
      Matrix.vecHead, Matrix.vecTail, Function.comp]

theorem Xint_det : (!![2] : Matrix (Fin 1) (Fin 1) ℚ).det = 2 := by
  rw [Matrix.det_fin_one]
  rfl

theorem Xint_intercept : ∀ i, Xint i 0 = 1 := by
  intro i
  fin_cases i <;> rfl

theorem fit_ols_Xint_const : fit_ols Xint yconst = .ok (![3], 0) := by
  have hb : Xintᵀ *ᵥ yconst = ![6] := by
    funext i
    fin_cases i <;>
      norm_num [Xint, yconst, Matrix.mulVec, Matrix.transpose_apply, dotProduct,
        Fin.sum_univ_two, Matrix.vecHead, Matrix.vecTail, Function.comp]
  have hcoefs : ((2 : ℚ)⁻¹ •
      ((!![2] : Matrix (Fin 1) (Fin 1) ℚ).adjugate *ᵥ ![6])) = ![3] := by
    funext i
    fin_cases i <;>
      norm_num [Matrix.adjugate_fin_one, Matrix.mulVec, dotProduct,
        Fin.sum_univ_one, Matrix.vecHead, Matrix.vecTail, Function.comp]
  have hfitted : Xint *ᵥ ![3] = yconst := by
    funext i
    fin_cases i <;>
      norm_num [Xint, yconst, Matrix.mulVec, dotProduct, Fin.sum_univ_one,
        Matrix.vecHead, Matrix.vecTail, Function.comp]
  have hr2 : r2stat yconst yconst = 0 := by
    have hm : mean yconst = 3 := by
      norm_num [mean, yconst, Fin.sum_univ_two]
    have hc : covc yconst yconst = 0 := by
      rw [covc, hm]
      norm_num [yconst, Fin.sum_univ_two]
    rw [r2stat, hc]
    norm_num
  simp only [fit_ols, Xint_gram, hb, Xint_det]
  rw [if_neg (by norm_num : ¬((2 : ℚ) = 0)), hcoefs, hfitted, hr2]

theorem fit_ols_Xint_yc : fit_ols Xint yc = .ok (![2], 0) := by
  have hb : Xintᵀ *ᵥ yc = ![4] := by
    funext i
    fin_cases i <;>
      norm_num [Xint, yc, Matrix.mulVec, Matrix.transpose_apply, dotProduct,
        Fin.sum_univ_two, Matrix.vecHead, Matrix.vecTail, Function.comp]
  have hcoefs : ((2 : ℚ)⁻¹ •
      ((!![2] : Matrix (Fin 1) (Fin 1) ℚ).adjugate *ᵥ ![4])) = ![2] := by
    funext i
    fin_cases i <;>
      norm_num [Matrix.adjugate_fin_one, Matrix.mulVec, dotProduct,
        Fin.sum_univ_one, Matrix.vecHead, Matrix.vecTail, Function.comp]
  have hfitted : Xint *ᵥ ![2] = ![2, 2] := by
    funext i
    fin_cases i <;>
      norm_num [Xint, Matrix.mulVec, dotProduct, Fin.sum_univ_one,
        Matrix.vecHead, Matrix.vecTail, Function.comp]
  have hr2 : r2stat ![2, 2] yc = 0 := by
    have hmu : mean (![2, 2] : Fin 2 → ℚ) = 2 := by
      norm_num [mean, Fin.sum_univ_two]
    have hc : covc (![2, 2] : Fin 2 → ℚ) yc = 0 := by
      rw [covc, hmu]
      norm_num [yc, Fin.sum_univ_two]
    rw [r2stat, hc]
    norm_num
  simp only [fit_ols, Xint_gram, hb, Xint_det]
  rw [if_neg (by norm_num : ¬((2 : ℚ) = 0)), hcoefs, hfitted, hr2]

theorem conventionalR2_Xint_yc : conventionalR2 Xint yc ![2] = 0 := by
  have hfitted : Xint *ᵥ ![2] = ![2, 2] := by
    funext i
    fin_cases i <;>
      norm_num [Xint, Matrix.mulVec, dotProduct, Fin.sum_univ_one,
        Matrix.vecHead, Matrix.vecTail, Function.comp]
  rw [conventionalR2, hfitted]
  rw [show mean yc = 2 by norm_num [mean, yc, Fin.sum_univ_two]]
  norm_num [yc, Fin.sum_univ_two]

/-- The self cross-product is the centered sum of squares. -/
theorem covc_self {n : ℕ} (y : Fin n → ℚ) :
    covc y y = ∑ i, (y i - mean y) ^ 2 :=
  Finset.sum_congr rfl fun i _ => by ring

/-- When the response has a nonzero centered sum of squares, the squared
correlation of any vector with itself is `1`. -/
theorem r2stat_self {n : ℕ} (y : Fin n → ℚ)
    (h : (∑ i, (y i - mean y) ^ 2) ≠ 0) : r2stat y y = 1 := by
  have hc : covc y y = ∑ i, (y i - mean y) ^ 2 :=
    Finset.sum_congr rfl fun i _ => by ring
  rw [r2stat, hc, pow_two, div_self (mul_ne_zero h h)]

/-- The coefficient list returned at the list level has the length of the
first row of the design. -/
theorem fit_ols_list_ok_shape {X : List (List ℚ)} {y : List ℚ}
    {cs : List ℚ} {s : ℚ} (hok : fit_ols_list X y = .ok (cs, s)) :
    cs.length = (X.headD []).length := by
  simp only [fit_ols_list] at hok
  split at hok
  · split at hok
    · rename_i β s' heq
      simp only [Except.ok.injEq, Prod.mk.injEq] at hok
      rw [← hok.1]
      simp
    · simp at hok
  · simp at hok

theorem Xint_fitted_two : Xint *ᵥ ![2] = ![2, 2] := by
  funext i
  fin_cases i <;>
    norm_num [Xint, Matrix.mulVec, dotProduct, Fin.sum_univ_one,
      Matrix.vecHead, Matrix.vecTail, Function.comp]

theorem covc_const_two : covc (![2, 2] : Fin 2 → ℚ) ![2, 2] = 0 := by
  rw [covc,
    show mean (![2, 2] : Fin 2 → ℚ) = 2 by norm_num [mean, Fin.sum_univ_two]]
  norm_num [Fin.sum_univ_two]

/-- Intercept plus one predictor on two observations (an exact fit with
non-constant fitted values). -/
def Xb : Matrix (Fin 2) (Fin 2) ℚ := !![1, 1; 1, 2]

def yb : Fin 2 → ℚ := ![1, 3]

theorem Xb_gram : Xbᵀ * Xb = !![2, 3; 3, 5] := by
  ext i j
  fin_cases i <;> fin_cases j <;>
    norm_num [Xb, Matrix.mul_apply, Matrix.transpose_apply, Fin.sum_univ_two,
      Matrix.vecHead, Matrix.vecTail, Function.comp]

theorem Xb_moment : Xbᵀ *ᵥ yb = ![4, 7] := by
  funext i
  fin_cases i <;>
    norm_num [Xb, yb, Matrix.mulVec, Matrix.transpose_apply, dotProduct,
      Fin.sum_univ_two, Matrix.vecHead, Matrix.vecTail, Function.comp]

theorem Xb_gram_det :
    (!![2, 3; 3, 5] : Matrix (Fin 2) (Fin 2) ℚ).det = 1 := by
  norm_num [Matrix.det_fin_two]

theorem Xb_coefs :
    ((1 : ℚ)⁻¹ •
      ((!![2, 3; 3, 5] : Matrix (Fin 2) (Fin 2) ℚ).adjugate *ᵥ ![4, 7]))
      = ![-1, 2] := by
  rw [Matrix.adjugate_fin_two]
  funext i
  fin_cases i <;>
    norm_num [Matrix.mulVec, dotProduct, Fin.sum_univ_two,
      Matrix.vecHead, Matrix.vecTail, Function.comp]

theorem Xb_fitted : Xb *ᵥ ![-1, 2] = yb := by
  funext i
  fin_cases i <;>
    norm_num [Xb, yb, Matrix.mulVec, dotProduct, Fin.sum_univ_two,
      Matrix.vecHead, Matrix.vecTail, Function.comp]

theorem Xb_intercept : ∀ i, Xb i 0 = 1 := by
  intro i
  fin_cases i <;> rfl

theorem yb_ss_ne : (∑ i, (yb i - mean yb) ^ 2) ≠ 0 := by
  rw [show mean yb = 2 by norm_num [mean, yb, Fin.sum_univ_two]]
  norm_num [yb, Fin.sum_univ_two]

theorem fit_ols_Xb : fit_ols Xb yb = .ok (![-1, 2], 1) := by
  simp only [fit_ols, Xb_gram, Xb_moment, Xb_gram_det]
  rw [if_neg (by norm_num : ¬((1 : ℚ) = 0)), Xb_coefs, Xb_fitted,
    r2stat_self yb yb_ss_ne]

/-! ## Claims -/

/-- C1: for every design matrix `X` of shape n×p with rank p and every
response `y`, the solver succeeds, and the coefficient vector it returns by
solving the normal-equation system minimizes the sum of squared residuals
`‖Xβ − y‖²` over all coefficient vectors. -/
theorem C1_normal_equation_minimizes {n p : ℕ} (X : Matrix (Fin n) (Fin p) ℚ)
    (y : Fin n → ℚ) (hrank : X.rank = p) :
    (∃ β s, fit_ols X y = .ok (β, s)) ∧
      ∀ β s, fit_ols X y = .ok (β, s) →
        ∀ b, sqNorm (X *ᵥ β - y) ≤ sqNorm (X *ᵥ b - y) := by
  have hd := (det_transpose_mul_self_ne_zero_iff X).2 hrank
  exact ⟨⟨_, _, fit_ols_ok_of_det_ne X y hd⟩,
    fun β s hok b => fit_ols_min hok b⟩

theorem C1_witness :
    sqNorm (X4 *ᵥ ![0, 2] - y4) ≤ sqNorm (X4 *ᵥ ![1, 1] - y4) := by
  have hrank : X4.rank = 2 := (det_transpose_mul_self_ne_zero_iff X4).1
    (by rw [X4_gram, X4_gram_det]; norm_num)
  exact (C1_normal_equation_minimizes X4 y4 hrank).2 ![0, 2] 1 fit_ols_X4 ![1, 1]

/-- C2: whenever the solver succeeds with coefficients `β` and statistic `s`,
`s` equals `r²` where `r` is the Pearson correlation coefficient between the
fitted values `Xβ` and the observed values `y`. -/
theorem C2_stat_is_squared_pearson {n p : ℕ} (X : Matrix (Fin n) (Fin p) ℚ)
    (y : Fin n → ℚ) (β : Fin p → ℚ) (s : ℚ)
    (hok : fit_ols X y = .ok (β, s)) :
    (s : ℝ) = pearsonr (fun i => ((X *ᵥ β) i : ℝ)) (fun i => (y i : ℝ)) ^ 2 := by
  rw [fit_ols_stat hok]
  exact r2stat_eq_pearsonr_sq (X *ᵥ β) y

theorem C2_witness :
    ((1 : ℚ) : ℝ) = pearsonr (fun i => ((X4 *ᵥ ![0, 2]) i : ℝ))
      (fun i => (y4 i : ℝ)) ^ 2 :=
  C2_stat_is_squared_pearson X4 y4 ![0, 2] 1 fit_ols_X4

/-- C3: whenever `Xᵀ X` is singular the solver fails with `SingularMatrix`
and returns no partial result; moreover two perfectly collinear (equal)
predictor columns, or `p > n`, make `Xᵀ X` singular. -/
theorem C3_singular_fails :
    (∀ (n p : ℕ) (X : Matrix (Fin n) (Fin p) ℚ) (y : Fin n → ℚ),
        (Xᵀ * X).det = 0 → fit_ols X y = .error .SingularMatrix) ∧
      (∀ (n p : ℕ) (X : Matrix (Fin n) (Fin p) ℚ) (i j : Fin p), i ≠ j →
        (∀ k, X k i = X k j) → (Xᵀ * X).det = 0) ∧
      ∀ (n p : ℕ) (X : Matrix (Fin n) (Fin p) ℚ), n < p → (Xᵀ * X).det = 0 := by
  refine ⟨?_, ?_, ?_⟩
  · intro n p X y hd
    simp [fit_ols, hd]
  · intro n p X i j hne hcols
    exact det_tXX_eq_zero_of_eq_cols X hne hcols
  · intro n p X hnp
    exact det_tXX_eq_zero_of_lt X hnp

theorem C3_witness : fit_ols Xs ys = .error .SingularMatrix :=
  C3_singular_fails.1 2 2 Xs ys
    (C3_singular_fails.2.1 2 2 Xs 0 1 (by decide) Xs_cols_eq)

/-- C4: a row-count disagreement between `X` and `y` fails with
`DimensionMismatch`; the shape inconsistency alone decides the outcome, so
the failure occurs before any solving. -/
theorem C4_dimension_mismatch (X : List (List ℚ)) (y : List ℚ)
    (hlen : y.length ≠ X.length) :
    fit_ols_list X y = .error .DimensionMismatch := by
  have hcond : ¬ ((X.all fun r => r.length = (X.headD []).length)
      ∧ y.length = X.length) := fun hc => hlen hc.2
  simp only [fit_ols_list]
  rw [if_neg hcond]

theorem C4_witness :
    fit_ols_list
      [[1, 0, 0], [0, 1, 0], [0, 0, 1], [1, 1, 0], [0, 1, 1],
        [1, 0, 1], [1, 1, 1], [2, 0, 0], [0, 2, 0], [0, 0, 2]]
      [1, 2, 3, 4, 5, 6, 7, 8, 9] = .error .DimensionMismatch :=
  C4_dimension_mismatch _ _ (by decide)

theorem C5_counterexample :
    (∀ i, Xint i 0 = 1) ∧ yconst = Xint *ᵥ ![3] ∧
      fit_ols Xint yconst = .ok (![3], 0) ∧ (0 : ℚ) ≠ 1 := by
  refine ⟨Xint_intercept, ?_, fit_ols_Xint_const, by norm_num⟩
  funext i
  fin_cases i <;>
    norm_num [Xint, yconst, Matrix.mulVec, dotProduct, Fin.sum_univ_one,
      Matrix.vecHead, Matrix.vecTail, Function.comp]

/-- C5 (amended): when the response is an exact linear combination `X β₀` and
is not constant (`SS_tot ≠ 0`, excluding the degenerate case in which the
Pearson correlation is undefined), a successful solve recovers exactly the
true coefficients and reports fit statistic exactly 1; and on the concrete
scenario `X = [[1,1],[1,2],[1,3],[1,4]]`, `y = [2,4,6,8]` the solver returns
coefficients `[0, 2]` and fit statistic `1`. -/
theorem C5_exact_recovery :
    (∀ (n p : ℕ) (X : Matrix (Fin n) (Fin p) ℚ) (y : Fin n → ℚ)
        (β₀ β : Fin p → ℚ) (s : ℚ), y = X *ᵥ β₀ →
        fit_ols X y = .ok (β, s) → (∑ i, (y i - mean y) ^ 2) ≠ 0 →
        β = β₀ ∧ s = 1) ∧
      fit_ols_list [[1, 1], [1, 2], [1, 3], [1, 4]] [2, 4, 6, 8]
        = .ok ([0, 2], 1) := by
  refine ⟨?_, fit_ols_list_scenario⟩
  intro n p X y β₀ β s hy hok hvar
  have hd := fit_ols_det_ne hok
  have hβ : β = β₀ := by
    apply mulVec_cancel hd
    rw [fit_ols_normal hok, hy, Matrix.mulVec_mulVec]
  refine ⟨hβ, ?_⟩
  rw [fit_ols_stat hok, hβ, ← hy, r2stat_self y hvar]

theorem C5_witness : (![0, 2] : Fin 2 → ℚ) = ![0, 2] ∧ (1 : ℚ) = 1 :=
  C5_exact_recovery.1 4 2 X4 y4 ![0, 2] ![0, 2] 1 X4_fitted.symm fit_ols_X4
    (by rw [mean_y4]; norm_num [y4, Fin.sum_univ_four])

/-- C6: the solver is deterministic — it is a pure function of its inputs,
so two invocations with identical inputs give identical results, at the
typed level and at the list level. -/
theorem C6_deterministic :
    (∀ (n p : ℕ) (X : Matrix (Fin n) (Fin p) ℚ) (y : Fin n → ℚ),
        fit_ols X y = fit_ols X y) ∧
      ∀ (X : List (List ℚ)) (y : List ℚ), fit_ols_list X y = fit_ols_list X y :=
  ⟨fun _ _ _ _ => rfl, fun _ _ => rfl⟩

theorem C7_counterexample :
    X1.rank = 1 ∧ fit_ols X1 y1 = .ok (![1], 1) ∧ IsSklearnFit X1 y1 ![1] ∧
      conventionalR2 X1 y1 ![1] = -7 ∧ (1 : ℚ) ≠ -7 :=
  ⟨(det_transpose_mul_self_ne_zero_iff X1).1 X1_det_ne, fit_ols_X1,
    sklearnFit_X1, conventionalR2_X1, by norm_num⟩

/-- C7 (amended): for full-column-rank `X`, the normal-equation coefficients
are exactly the (unique) least-squares fit that the scikit-learn path
computes; the two reported R² values moreover agree whenever `X` has an
intercept column, `SS_tot ≠ 0`, and the fitted values are not constant —
the last condition is what makes the program's Pearson correlation a real
number rather than NaN, and under it the statistic is genuinely defined
(`r2statN` is `some s`) and equals the scikit-learn score. -/
theorem C7_paths_agree {n p : ℕ} (X : Matrix (Fin n) (Fin p) ℚ)
    (y : Fin n → ℚ) (β : Fin p → ℚ) (s : ℚ) (hrank : X.rank = p)
    (hok : fit_ols X y = .ok (β, s)) :
    (IsSklearnFit X y β ∧ ∀ β', IsSklearnFit X y β' → β' = β) ∧
      ∀ j : Fin p, (∀ i, X i j = 1) → (∑ i, (y i - mean y) ^ 2) ≠ 0 →
        covc (X *ᵥ β) (X *ᵥ β) ≠ 0 →
        s = conventionalR2 X y β ∧ r2statN (X *ᵥ β) y = some s := by
  refine ⟨⟨fun b => fit_ols_min hok b,
    fun β' hβ' => fit_ols_unique_min hok β' hβ'⟩, ?_⟩
  intro j hj hT hfit
  have hy : covc y y ≠ 0 := by
    rw [covc_self]
    exact hT
  refine ⟨fit_ols_stat_eq_conventional hok j hj hT, ?_⟩
  rw [r2statN, if_neg (mul_ne_zero hfit hy), fit_ols_stat hok]

theorem C7_witness :
    (1 : ℚ) = conventionalR2 X4 y4 ![0, 2] ∧
      r2statN (X4 *ᵥ ![0, 2]) y4 = some 1 := by
  have hrank : X4.rank = 2 := (det_transpose_mul_self_ne_zero_iff X4).1
    (by rw [X4_gram, X4_gram_det]; norm_num)
  have hicol : ∀ i, X4 i 0 = 1 := by
    intro i
    fin_cases i <;> rfl
  exact (C7_paths_agree X4 y4 ![0, 2] 1 hrank fit_ols_X4).2 0 hicol
    (by rw [mean_y4]; norm_num [y4, Fin.sum_univ_four])
    (by rw [X4_fitted, covc_self, mean_y4]; norm_num [y4, Fin.sum_univ_four])

theorem C8_counterexample :
    (∀ i, Xint i 0 = 1) ∧ fit_ols Xint yc = .ok (![2], 0) ∧
      (∑ i, (yc i - mean yc) ^ 2) ≠ 0 ∧
      conventionalR2 Xint yc ![2] = 0 ∧
      r2statN (Xint *ᵥ ![2]) yc = none ∧
      r2statN (Xint *ᵥ ![2]) yc ≠ some (conventionalR2 Xint yc ![2]) := by
  have hnone : r2statN (Xint *ᵥ ![2]) yc = none := by
    rw [Xint_fitted_two, r2statN, if_pos (by rw [covc_const_two, zero_mul])]
  refine ⟨Xint_intercept, fit_ols_Xint_yc, ?_, conventionalR2_Xint_yc,
    hnone, ?_⟩
  · rw [show mean yc = 2 by norm_num [mean, yc, Fin.sum_univ_two]]
    norm_num [yc, Fin.sum_univ_two]
  · rw [hnone]
    exact fun h => Option.noConfusion h

/-- C8 (amended): with an intercept column, a successful solve, `SS_tot ≠ 0`
and non-constant fitted values (when the fitted values are constant the
program's `pearsonr` computes 0/0 and the reported statistic is NaN, see the
counterexample), the statistic is genuinely defined (`r2statN` is `some s`)
and equals the conventional `R² = 1 − SS_res/SS_tot`. -/
theorem C8_stat_is_conventional_r2 {n p : ℕ} (X : Matrix (Fin n) (Fin p) ℚ)
    (y : Fin n → ℚ) (β : Fin p → ℚ) (s : ℚ) (j : Fin p)
    (hj : ∀ i, X i j = 1) (hok : fit_ols X y = .ok (β, s))
    (hT : (∑ i, (y i - mean y) ^ 2) ≠ 0)
    (hfit : covc (X *ᵥ β) (X *ᵥ β) ≠ 0) :
    s = conventionalR2 X y β ∧ r2statN (X *ᵥ β) y = some s := by
  have hy : covc y y ≠ 0 := by
    rw [covc_self]
    exact hT
  refine ⟨fit_ols_stat_eq_conventional hok j hj hT, ?_⟩
  rw [r2statN, if_neg (mul_ne_zero hfit hy), fit_ols_stat hok]

theorem C8_witness :
    (1 : ℚ) = conventionalR2 Xb yb ![-1, 2] ∧
      r2statN (Xb *ᵥ ![-1, 2]) yb = some 1 :=
  C8_stat_is_conventional_r2 Xb yb ![-1, 2] 1 0 Xb_intercept fit_ols_Xb
    yb_ss_ne (by rw [Xb_fitted, covc_self]; exact yb_ss_ne)

/-- C9: on a successful solve of an n×p design, the returned coefficient
list has length exactly `p`, the column count of the design matrix. -/
theorem C9_coefficient_vector_length (X : List (List ℚ)) (y : List ℚ)
    (p : ℕ) (hne : X ≠ []) (hrect : ∀ r ∈ X, r.length = p)
    (cs : List ℚ) (s : ℚ) (hok : fit_ols_list X y = .ok (cs, s)) :
    cs.length = p := by
  have h1 := fit_ols_list_ok_shape hok
  obtain ⟨x, xs, rfl⟩ : ∃ x xs, X = x :: xs := by
    cases X with
    | nil => exact absurd rfl hne
    | cons a l => exact ⟨a, l, rfl⟩
  rw [List.headD_cons] at h1
  exact h1.trans (hrect x (List.mem_cons_self x xs))

theorem C9_witness : ([0, 2] : List ℚ).length = 2 := by
  refine C9_coefficient_vector_length [[1, 1], [1, 2], [1, 3], [1, 4]]
    [2, 4, 6, 8] 2 (List.cons_ne_nil _ _) ?_ [0, 2] 1 fit_ols_list_scenario
  intro r hr
  simp only [List.mem_cons, List.not_mem_nil, or_false] at hr
  rcases hr with rfl | rfl | rfl | rfl <;> rfl

/-- C10: the solver call has no side effects: modelled as a state
transformer over the environment holding the input arrays, the call returns
the environment unchanged, and produces nothing beyond the coefficient
vector and the fit statistic. -/
theorem C10_no_side_effects (env : List (List ℚ) × List ℚ) :
    (fit_ols_call env).1 = env ∧
      (fit_ols_call env).2 = fit_ols_list env.1 env.2 :=
  ⟨rfl, rfl⟩
